import Mathlib

/-!
Verification of the concurrency-control layer of the KonkoAI chat service:
the sliding-window rate limiter (`api/rate_limiter.py`) and the per-key
ordering request queue (`api/request_queue.py`).

Time is modelled as `Nat` ticks; Python `float` timestamps only ever enter
comparisons of the form `ts > now - window`, which the `Nat` embedding
preserves for the monotone clocks the claims quantify over.
-/

namespace RateLimiterModel

/-- Association-list lookup, modelling Python dict access `d[k]` /
`k in d` on `RateLimiter.requests : Dict[str, List[float]]`. -/
def lookupA (l : List (String × List Nat)) (k : String) : Option (List Nat) :=
  (l.find? (fun p => p.1 == k)).map Prod.snd

/-- Association-list update, modelling Python dict assignment `d[k] = v`:
replace the entry for `k` when present, otherwise add one. -/
def setKey : List (String × List Nat) → String → List Nat →
    List (String × List Nat)
  | [], k, v => [(k, v)]
  | p :: rest, k, v => if p.1 = k then (k, v) :: rest else p :: setKey rest k v

/-- State of `RateLimiter` (`rate_limiter.py` lines 51-57): the configured
`rate_limit` and `time_window`, and the per-key timestamp lists. -/
structure RLState where
  rate_limit : Nat
  time_window : Nat
  requests : List (String × List Nat)
deriving DecidableEq

/-- The pruning step shared by `check_rate_limit` (lines 113-117),
`get_remaining_requests` (lines 152-156) and `_periodic_cleanup`
(lines 86-92): keep exactly the timestamps `ts` with
`ts > cutoff_time` where `cutoff_time = current_time - time_window`. -/
def prune (now window : Nat) (ts : List Nat) : List Nat :=
  ts.filter (fun t => now - window < t)

/-- Outcome of `RateLimiter.check_rate_limit`: normal return, or the
`RateLimitExceeded` exception (line 127). -/
inductive CheckResult where
  | ok
  | rateLimitExceeded
deriving DecidableEq

/-- `RateLimiter.check_rate_limit(key)` (lines 101-138): create the key's
list if absent, prune stale timestamps, raise `RateLimitExceeded` when the
pruned count is at or above `rate_limit` (leaving only the pruned list
stored), otherwise append the current timestamp. -/
def check_rate_limit (st : RLState) (now : Nat) (key : String) :
    CheckResult × RLState :=
  let ts := prune now st.time_window ((lookupA st.requests key).getD [])
  if st.rate_limit ≤ ts.length then
    (.rateLimitExceeded, { st with requests := setKey st.requests key ts })
  else
    (.ok, { st with requests := setKey st.requests key (ts ++ [now]) })

/-- `RateLimiter.get_remaining_requests(key)` (lines 140-158): return
`rate_limit` untouched for an unknown key; otherwise prune the key's list
in place and return `max(0, rate_limit - len(...))`. -/
def get_remaining_requests (st : RLState) (now : Nat) (key : String) :
    Nat × RLState :=
  match lookupA st.requests key with
  | none => (st.rate_limit, st)
  | some ts0 =>
      let ts := prune now st.time_window ts0
      (max 0 (st.rate_limit - ts.length),
       { st with requests := setKey st.requests key ts })

/-- One pass of the body of `RateLimiter._periodic_cleanup` (lines 84-94):
prune every key's list and delete keys whose list became empty. -/
def periodic_cleanup_pass (st : RLState) (now : Nat) : RLState :=
  let pruned := st.requests.map (fun p => (p.1, prune now st.time_window p.2))
  { st with requests := pruned.filter (fun p => !p.2.isEmpty) }

/-- Invariant vocabulary: every timestamp in `ts` lies in the trailing
window `[now - window, now]`. -/
def withinWindow (now window : Nat) (ts : List Nat) : Prop :=
  ∀ t ∈ ts, now - window ≤ t ∧ t ≤ now

end RateLimiterModel

namespace RequestQueueModel

/-- Result of awaiting a submitted task inside the processor
(`request_queue.py` lines 112-115): a value, an exception raised by the
task, or an `asyncio.TimeoutError` from `asyncio.wait_for`. -/
inductive TaskOutcome (α : Type) where
  | ok (v : α)
  | err (e : String)
  | timedOut
deriving DecidableEq

/-- Resolution state of an `asyncio.Future` result handle
(`QueuedRequest.future`). -/
inductive FutureState (α : Type) where
  | pending
  | result (v : α)
  | exception (e : String)
deriving DecidableEq

/-- Lines 111-131 of `RequestQueue._process_queue`: how the processor
resolves a request's future from the awaited task's outcome — a value via
`set_result`, a task exception via `set_exception`, and a timeout via
`set_exception(TimeoutError("Request processing timed out"))`. Every
branch resolves the future and falls through to the rest of the loop. -/
def resolveOutcome {α : Type} (o : TaskOutcome α) : FutureState α :=
  match o with
  | .ok v => .result v
  | .err e => .exception e
  | .timedOut => .exception "Request processing timed out"

/-- The sequencing state a key's processor maintains (lines 95-97):
`pending` holds the sequence numbers currently in
`_pending_requests[conversation_id]`, `next_sequence` is the local counter
of the same name, and `executed` is the trace of executions in the order
the processor performed them, with the resolution each future received. -/
structure ProcState (α : Type) where
  pending : List Nat
  next_sequence : Nat
  executed : List (Nat × FutureState α)
deriving DecidableEq

/-- The inner `while next_sequence in pending` loop (lines 107-134):
while the head sequence number is pending, pop it, execute its task
(resolving its future from the outcome), and advance `next_sequence`.
`tasks j` is the outcome of the task submitted with sequence number `j`.
The fuel argument only bounds the recursion; `pending.length` fuel is
always enough because each iteration removes one pending entry. -/
def drainFuel {α : Type} (tasks : Nat → TaskOutcome α) :
    Nat → List Nat → Nat → List (Nat × FutureState α) →
      List Nat × Nat × List (Nat × FutureState α)
  | 0, p, ns, ex => (p, ns, ex)
  | fuel + 1, p, ns, ex =>
      if ns ∈ p then
        drainFuel tasks fuel (p.erase ns) (ns + 1)
          (ex ++ [(ns, resolveOutcome (tasks ns))])
      else (p, ns, ex)

/-- One iteration of the processor's outer `while True` loop
(lines 100-134): `await queue.get()` hands the processor the request with
sequence number `s`; it is added to `pending` and the inner loop drains
every contiguous run starting at `next_sequence`. -/
def handleArrival {α : Type} (tasks : Nat → TaskOutcome α) (st : ProcState α)
    (s : Nat) : ProcState α :=
  let r := drainFuel tasks (s :: st.pending).length (s :: st.pending)
    st.next_sequence st.executed
  ⟨r.1, r.2.1, r.2.2⟩

/-- The processor's behaviour over a whole arrival order: requests reach
`queue.get()` in the (arbitrary) order `arr` of their sequence numbers,
starting from the fresh state created by `_get_queue`. -/
def processArrivals {α : Type} (tasks : Nat → TaskOutcome α)
    (arr : List Nat) : ProcState α :=
  arr.foldl (handleArrival tasks) ⟨[], 0, []⟩

/-- Invariant tying a processor state to the set `arrived` of sequence
numbers it has received so far: the execution trace is exactly the
sequence numbers below `next_sequence` in ascending order, each resolved
from its own task's outcome; the pending set is the arrived numbers not
yet reached; every number below `next_sequence` has arrived; and
`next_sequence` itself is not pending. -/
def ArrInv {α : Type} (tasks : Nat → TaskOutcome α) (st : ProcState α)
    (arrived : List Nat) : Prop :=
  st.executed = (List.range st.next_sequence).map
      (fun j => (j, resolveOutcome (tasks j)))
  ∧ st.pending.Nodup
  ∧ (∀ s, s ∈ st.pending ↔ s ∈ arrived ∧ st.next_sequence ≤ s)
  ∧ (∀ k, k < st.next_sequence → k ∈ arrived)
  ∧ st.next_sequence ∉ st.pending

/-- Concrete task assignment where every task returns its own sequence
number. -/
def tasksAllOk : Nat → TaskOutcome Nat := fun j => .ok j

/-- Concrete task assignment where the task at sequence number 1 raises. -/
def tasksFailAt1 : Nat → TaskOutcome Nat :=
  fun j => if j = 1 then .err "boom" else .ok j

/-- Control location of a key's processor coroutine: `waiting` — parked on
`await queue.get()` (line 101); `cancelling` — `asyncio.CancelledError`
was delivered and caught (line 143) and the coroutine is blocked at
`async with self._lock` at the top of its `finally` block (line 146), with
the teardown not yet performed; `exited` — the `finally` block completed
and the coroutine finished. The `while True` loop has no other way out
than cancellation. -/
inductive ProcPhase where
  | waiting
  | cancelling
  | exited
deriving DecidableEq

/-- Lifecycle of one key's processor and dictionary entries: `queueBuf` is
the content of the key's `asyncio.Queue` in arrival order, `statePresent`
records whether `queues[cid]`, `_sequence_counters[cid]` and
`_pending_requests[cid]` still exist, and `proc` is the sequencing state
above. -/
structure KeyLifecycle (α : Type) where
  phase : ProcPhase
  queueBuf : List Nat
  statePresent : Bool
  proc : ProcState α
deriving DecidableEq

/-- Cancellation of the processor task when `self._lock` is free
(lines 143-150): the coroutine leaves the loop through
`except asyncio.CancelledError`, and its `finally` block — under
`self._lock`, the same lock `_get_queue` takes — deletes the key's state
exactly when the key's queue is empty. No future is touched. A processor
already blocked in its `finally` (`cancelling`) stays blocked until the
lock is released. -/
def cancelProc {α : Type} (st : KeyLifecycle α) : KeyLifecycle α :=
  match st.phase with
  | .exited => st
  | .cancelling => st
  | .waiting =>
      { st with phase := .exited,
                statePresent :=
                  if st.queueBuf.isEmpty then false else st.statePresent }

/-- Events a running processor can see: `deliver` — `await queue.get()`
returns the next buffered request and the loop body runs back to
`queue.get()`; `cancel` — the coroutine is cancelled. -/
inductive LifeEvent where
  | deliver
  | cancel
deriving DecidableEq

/-- Small-step of the processor coroutine of lines 93-150: delivering a
request runs one outer-loop iteration and leaves the processor parked on
`queue.get()` again (the loop is `while True`; nothing exits it), and
cancellation runs the `finally` teardown. -/
def lifeStep {α : Type} (tasks : Nat → TaskOutcome α) (st : KeyLifecycle α)
    (ev : LifeEvent) : KeyLifecycle α :=
  match st.phase, ev with
  | .exited, _ => st
  | .cancelling, _ => st
  | .waiting, .deliver =>
      match st.queueBuf with
      | [] => st
      | s :: rest =>
          { st with queueBuf := rest, proc := handleArrival tasks st.proc s }
  | .waiting, .cancel => cancelProc st

/-- Global state seen by `RequestQueue.cleanup` (lines 200-217): the
per-key processor coroutines tracked in `self._tasks`, and the result
handles held by callers blocked inside `enqueue_request`. -/
structure GlobalState (α : Type) where
  procs : List (KeyLifecycle α)
  handles : List (FutureState α)
deriving DecidableEq

/-- How a call to `RequestQueue.cleanup` ends: `completed g` — the call
returned with the system in state `g`; `deadlocked g` — the call blocks
forever inside `await asyncio.gather(...)` (line 210) and never returns,
with `g` the state everything is stuck in. -/
inductive CleanupResult (α : Type) where
  | completed (g : GlobalState α)
  | deadlocked (g : GlobalState α)
deriving DecidableEq

/-- `RequestQueue.cleanup` (lines 200-217): it acquires `self._lock`
(line 202), calls `task.cancel()` on every not-yet-done processor task
(lines 205-207), and — still holding the lock — awaits
`asyncio.gather(*tasks, ...)` (line 210).

If every processor task has already finished (in particular if there are
none), the gather returns at once, the `.clear()` calls on lines 213-216
run (no key state survives), and `cleanup` returns.

If any processor is still alive, the delivered `CancelledError` sends it
into its `finally` block, which starts with `async with self._lock`
(line 146) — the very lock `cleanup` holds across the gather. The gather
therefore never completes: `cleanup` never returns, no dictionary is
cleared, and no processor finishes its teardown — each live one is parked
at the lock acquisition (`cancelling`), its key state untouched.

In both cases no statement in `cleanup`, nor in the cancellation path,
calls `set_result` or `set_exception` on a request's future, so the
handles pass through unchanged — pending ones stay pending. -/
def cleanup {α : Type} (g : GlobalState α) : CleanupResult α :=
  if g.procs.all (fun p => p.phase == ProcPhase.exited) then
    .completed ⟨g.procs.map (fun p => { p with statePresent := false }),
      g.handles⟩
  else
    .deadlocked ⟨g.procs.map (fun p =>
        if p.phase == ProcPhase.exited then p
        else { p with phase := ProcPhase.cancelling }),
      g.handles⟩

/-- Occupancy of the Concurrency Gate `asyncio.Semaphore(max_concurrent)`
(line 47): the keys whose task executions currently hold a slot. -/
structure GateState where
  running : List Nat
deriving DecidableEq

/-- Semaphore discipline of `async with self.semaphore` around each task
execution (line 110): an execution may start only while fewer than `cap`
slots are held, and leaving the `async with` block releases the slot. -/
inductive GateStep (cap : Nat) : GateState → GateState → Prop where
  | start (k : Nat) {s : GateState} : s.running.length < cap →
      GateStep cap s ⟨k :: s.running⟩
  | finish (k : Nat) {s : GateState} : k ∈ s.running →
      GateStep cap s ⟨s.running.erase k⟩

/-- Gate states reachable from the idle gate. -/
inductive GateReachable (cap : Nat) : GateState → Prop where
  | init : GateReachable cap ⟨[]⟩
  | step {s t : GateState} : GateReachable cap s → GateStep cap s t →
      GateReachable cap t

/-- Configuration fixed by `RequestQueue.__init__` (lines 39-46). -/
structure RQConfig where
  max_concurrent : Nat
  queue_timeout : Nat
deriving DecidableEq

/-- An execution of one submitted task: how long the awaited coroutine
runs and what it produces. -/
structure TaskRun (α : Type) where
  duration : Nat
  result : Except String α

/-- Lines 112-122: `asyncio.wait_for(task(...), timeout=self.queue_timeout)`
inside the processor. A run finishing within the timeout resolves the
future with its value or its own exception; a run exceeding it resolves
the future with `TimeoutError("Request processing timed out")`. -/
def execWithTimeout {α : Type} (cfg : RQConfig) (r : TaskRun α) :
    FutureState α :=
  if r.duration ≤ cfg.queue_timeout then
    match r.result with
    | .ok v => .result v
    | .error e => .exception e
  else .exception "Request processing timed out"

/-- What `enqueue_request` returns to its caller. -/
inductive SubmitResult (α : Type) where
  | value (v : α)
  | raisedError (e : String)
  | timeout
deriving DecidableEq

/-- Lines 182-190: `await asyncio.wait_for(future, timeout=self.queue_timeout)`
in `enqueue_request`: if the future resolves at `resolveTime` with outcome
`res` within the timeout, the caller receives that outcome; otherwise
`TimeoutError("Request processing timed out")` is raised to the caller. -/
def awaitFuture {α : Type} (cfg : RQConfig) (resolveTime : Nat)
    (res : Except String α) : SubmitResult α :=
  if resolveTime ≤ cfg.queue_timeout then
    match res with
    | .ok v => .value v
    | .error e => .raisedError e
  else .timeout

/-- Association-list lookup over `Nat` keys (conversation ids). -/
def lookupN {β : Type} (l : List (Nat × β)) (k : Nat) : Option β :=
  (l.find? (fun p => p.1 == k)).map Prod.snd

/-- Association-list update over `Nat` keys. -/
def setN {β : Type} : List (Nat × β) → Nat → β → List (Nat × β)
  | [], k, v => [(k, v)]
  | p :: rest, k, v => if p.1 = k then (k, v) :: rest else p :: setN rest k v

/-- The mutable fields of `RequestQueue` (lines 45-54) touched by
`acquire`, `get_queue_length`, `is_full`, `_get_queue` and
`enqueue_request`; conversation ids are modelled as `Nat`, and
`pending_requests` stores each key's pending sequence numbers. -/
structure RQState where
  max_concurrent : Nat
  queue_timeout : Nat
  active_requests : Nat
  queues : List Nat
  sequence_counters : List (Nat × Nat)
  pending_requests : List (Nat × List Nat)
deriving DecidableEq

/-- `_get_queue` (lines 81-91): under the lock, on first submission for a
key create its queue, zero its sequence counter and give it an empty
pending map (and start its processor). -/
def get_queue (s : RQState) (cid : Nat) : RQState :=
  if s.queues.contains cid then s
  else { s with queues := s.queues ++ [cid],
                sequence_counters := setN s.sequence_counters cid 0,
                pending_requests := setN s.pending_requests cid [] }

/-- State effect of `enqueue_request` (lines 152-179) up to the wait on
the future: `_get_queue`, then under the lock read and increment the key's
sequence counter, then record the request in `_pending_requests[cid]` and
put it on the key's queue. -/
def enqueue_request (s : RQState) (cid : Nat) : RQState :=
  let s1 := get_queue s cid
  let seq := (lookupN s1.sequence_counters cid).getD 0
  let pend := (lookupN s1.pending_requests cid).getD []
  { s1 with sequence_counters := setN s1.sequence_counters cid (seq + 1),
            pending_requests := setN s1.pending_requests cid (pend ++ [seq]) }

/-- Entry of the `acquire` context manager (lines 61-62). -/
def acquire_enter (s : RQState) : RQState :=
  { s with active_requests := s.active_requests + 1 }

/-- Exit of the `acquire` context manager (lines 68-69). -/
def acquire_exit (s : RQState) : RQState :=
  { s with active_requests := s.active_requests - 1 }

/-- `get_queue_length` (lines 71-74). -/
def get_queue_length (s : RQState) : Nat := s.active_requests

/-- `is_full` (lines 76-79): `self.active_requests >= self.max_concurrent`. -/
def is_full (s : RQState) : Bool :=
  decide (s.active_requests ≥ s.max_concurrent)

end RequestQueueModel

namespace RateLimiterModel

theorem lookupA_setKey (l : List (String × List Nat)) (k : String)
    (v : List Nat) : lookupA (setKey l k v) k = some v := by
  induction l with
  | nil => simp [setKey, lookupA, List.find?]
  | cons p rest ih =>
      by_cases hpk : p.1 = k
      · simp [setKey, hpk, lookupA, List.find?]
      · have hpk' : (p.1 == k) = false := beq_false_of_ne hpk
        simp only [setKey, if_neg hpk]
        simpa [lookupA, List.find?, hpk'] using ih

theorem setKey_setKey (l : List (String × List Nat)) (k : String)
    (v w : List Nat) : setKey (setKey l k v) k w = setKey l k w := by
  induction l with
  | nil => simp [setKey]
  | cons p rest ih =>
      by_cases hpk : p.1 = k
      · simp [setKey, hpk]
      · simp [setKey, if_neg hpk, ih]

theorem prune_idem (now window : Nat) (ts : List Nat) :
    prune now window (prune now window ts) = prune now window ts := by
  unfold prune
  rw [List.filter_filter]
  simp only [Bool.and_self]

/-- C4: `check_rate_limit(key)` first prunes timestamps older than the
window; if the remaining count is at or above `rate_limit` it raises
`RateLimitExceeded` and stores only the pruned list (no new timestamp);
otherwise it appends the current timestamp and succeeds. With
`rate_limit = 2` three rapid checks on one key give ok, ok,
`RateLimitExceeded`. -/
theorem check_rate_limit_spec (st : RLState) (now : Nat) (key : String) :
    (st.rate_limit ≤
        (prune now st.time_window ((lookupA st.requests key).getD [])).length →
      (check_rate_limit st now key).1 = CheckResult.rateLimitExceeded ∧
      lookupA (check_rate_limit st now key).2.requests key
        = some (prune now st.time_window ((lookupA st.requests key).getD [])))
    ∧ ((prune now st.time_window ((lookupA st.requests key).getD [])).length
          < st.rate_limit →
      (check_rate_limit st now key).1 = CheckResult.ok ∧
      lookupA (check_rate_limit st now key).2.requests key
        = some (prune now st.time_window ((lookupA st.requests key).getD [])
            ++ [now]))
    ∧ (check_rate_limit ⟨2, 1, []⟩ 5 "k").1 = CheckResult.ok
    ∧ (check_rate_limit (check_rate_limit ⟨2, 1, []⟩ 5 "k").2 5 "k").1
        = CheckResult.ok
    ∧ (check_rate_limit
        (check_rate_limit (check_rate_limit ⟨2, 1, []⟩ 5 "k").2 5 "k").2
        5 "k").1 = CheckResult.rateLimitExceeded := by
  refine ⟨?_, ?_, by decide, by decide, by decide⟩
  · intro h
    simp only [check_rate_limit, if_pos h]
    exact ⟨trivial, lookupA_setKey ..⟩
  · intro h
    simp only [check_rate_limit, if_neg (Nat.not_le.mpr h)]
    exact ⟨trivial, lookupA_setKey ..⟩

/-- Witness for C4 at a concrete over-limit state. -/
theorem check_rate_limit_spec_witness :
    (check_rate_limit ⟨2, 1, [("k", [5, 5])]⟩ 5 "k").1
        = CheckResult.rateLimitExceeded ∧
    lookupA (check_rate_limit ⟨2, 1, [("k", [5, 5])]⟩ 5 "k").2.requests "k"
        = some (prune 5 1 ((lookupA [("k", [5, 5])] "k").getD [])) :=
  (check_rate_limit_spec ⟨2, 1, [("k", [5, 5])]⟩ 5 "k").1 (by decide)

/-- C8: `get_remaining_requests(key)` prunes the key's stale timestamps and
returns `max(0, rate_limit - count)` over the pruned count; pruning is its
only side effect (no timestamp is recorded), and calling it twice with no
intervening check returns the same value and the same state as the first
call. -/
theorem get_remaining_requests_spec (st : RLState) (now : Nat)
    (key : String) :
    (lookupA st.requests key = none →
      (get_remaining_requests st now key).1 = st.rate_limit ∧
      (get_remaining_requests st now key).2 = st)
    ∧ (∀ ts0, lookupA st.requests key = some ts0 →
      (get_remaining_requests st now key).1
        = max 0 (st.rate_limit - (prune now st.time_window ts0).length) ∧
      lookupA (get_remaining_requests st now key).2.requests key
        = some (prune now st.time_window ts0))
    ∧ get_remaining_requests (get_remaining_requests st now key).2 now key
        = get_remaining_requests st now key := by
  refine ⟨?_, ?_, ?_⟩
  · intro h
    simp [get_remaining_requests, h]
  · intro ts0 h
    simp only [get_remaining_requests, h]
    exact ⟨trivial, lookupA_setKey ..⟩
  · cases h : lookupA st.requests key with
    | none => simp [get_remaining_requests, h]
    | some ts0 =>
        simp only [get_remaining_requests, h, lookupA_setKey, prune_idem,
          setKey_setKey]

/-- Witness for C8 at a concrete state holding one stale and one fresh
timestamp. -/
theorem get_remaining_requests_spec_witness :
    (get_remaining_requests ⟨2, 1, [("k", [3, 5])]⟩ 5 "k").1
      = max 0 (2 - (prune 5 1 [3, 5]).length) ∧
    lookupA (get_remaining_requests ⟨2, 1, [("k", [3, 5])]⟩ 5 "k").2.requests
        "k" = some (prune 5 1 [3, 5]) :=
  (get_remaining_requests_spec ⟨2, 1, [("k", [3, 5])]⟩ 5 "k").2.1 [3, 5]
    (by decide)

theorem prune_withinWindow (now window : Nat) (ts : List Nat)
    (h : ∀ t ∈ ts, t ≤ now) :
    withinWindow now window (prune now window ts) := by
  intro t ht
  have := List.mem_filter.mp ht
  exact ⟨Nat.le_of_lt (by simpa using this.2), h t this.1⟩

theorem lookupA_clock (st : RLState) (now : Nat) (key : String)
    (hclock : ∀ p ∈ st.requests, ∀ t ∈ p.2, t ≤ now) :
    ∀ t ∈ (lookupA st.requests key).getD [], t ≤ now := by
  cases h : lookupA st.requests key with
  | none => simp
  | some ts0 =>
      obtain ⟨p, hp, hsnd⟩ := Option.map_eq_some'.mp h
      have hmem := List.mem_of_find?_eq_some hp
      simpa [hsnd] using fun t ht => hclock p hmem t (hsnd ▸ ht)

/-- C9: for a monotone clock, after `check_rate_limit` or
`get_remaining_requests` the touched key's stored timestamps all lie in
`[now - window, now]`, immediately after a successful admission the key's
count is at most `rate_limit`, and a cleanup pass leaves every surviving
key with a non-empty, in-window timestamp list. -/
theorem rate_limiter_invariants (st : RLState) (now : Nat) (key : String)
    (hclock : ∀ p ∈ st.requests, ∀ t ∈ p.2, t ≤ now) :
    (∀ ts', lookupA (check_rate_limit st now key).2.requests key = some ts' →
      withinWindow now st.time_window ts' ∧
      ((check_rate_limit st now key).1 = CheckResult.ok →
        ts'.length ≤ st.rate_limit))
    ∧ (∀ ts', lookupA (get_remaining_requests st now key).2.requests key
          = some ts' → withinWindow now st.time_window ts')
    ∧ (∀ p ∈ (periodic_cleanup_pass st now).requests,
        withinWindow now st.time_window p.2 ∧ p.2 ≠ []) := by
  have hkey := lookupA_clock st now key hclock
  refine ⟨?_, ?_, ?_⟩
  · intro ts' hts'
    by_cases hc : st.rate_limit ≤
        (prune now st.time_window ((lookupA st.requests key).getD [])).length
    · simp only [check_rate_limit, if_pos hc, lookupA_setKey,
        Option.some.injEq] at hts' ⊢
      subst hts'
      refine ⟨prune_withinWindow now st.time_window _ hkey, ?_⟩
      intro hok
      cases hok
    · simp only [check_rate_limit, if_neg hc, lookupA_setKey,
        Option.some.injEq] at hts' ⊢
      subst hts'
      constructor
      · intro t ht
        rcases List.mem_append.mp ht with h1 | h1
        · exact prune_withinWindow now st.time_window _ hkey t h1
        · have : t = now := by simpa using h1
          subst this
          exact ⟨Nat.sub_le _ _, Nat.le_refl _⟩
      · intro _
        have hlt := Nat.lt_of_not_le hc
        simpa [List.length_append] using hlt
  · intro ts' hts'
    cases h : lookupA st.requests key with
    | none =>
        simp only [get_remaining_requests, h] at hts'
        exact Option.noConfusion hts'
    | some ts0 =>
        simp only [get_remaining_requests, h, lookupA_setKey,
          Option.some.injEq] at hts'
        subst hts'
        exact prune_withinWindow now st.time_window ts0
          (by simpa [h] using hkey)
  · intro p hp
    simp only [periodic_cleanup_pass] at hp
    have h1 := List.mem_filter.mp hp
    obtain ⟨q, hq, rfl⟩ := List.mem_map.mp h1.1
    refine ⟨prune_withinWindow now st.time_window q.2 (hclock q hq), ?_⟩
    intro hnil
    exact (show ¬prune now st.time_window q.2 = [] by simpa using h1.2) hnil

/-- Witness for C9: concrete admission at a state with one stale and one
fresh timestamp. -/
theorem rate_limiter_invariants_witness :
    withinWindow 5 1 [5, 5] ∧
    ((check_rate_limit ⟨2, 1, [("k", [3, 5])]⟩ 5 "k").1 = CheckResult.ok →
      List.length [5, 5] ≤ 2) :=
  (rate_limiter_invariants ⟨2, 1, [("k", [3, 5])]⟩ 5 "k"
    (by decide)).1 [5, 5] (by decide)

end RateLimiterModel

namespace RequestQueueModel

theorem drainFuel_spec {α : Type} (tasks : Nat → TaskOutcome α)
    (fuel : Nat) :
    ∀ (p : List Nat) (ns : Nat) (ex : List (Nat × FutureState α)),
      p.length ≤ fuel → p.Nodup →
      ns ≤ (drainFuel tasks fuel p ns ex).2.1
      ∧ (drainFuel tasks fuel p ns ex).2.1 ∉ (drainFuel tasks fuel p ns ex).1
      ∧ (∀ s, s ∈ (drainFuel tasks fuel p ns ex).1 ↔
            s ∈ p ∧ (s < ns ∨ (drainFuel tasks fuel p ns ex).2.1 ≤ s))
      ∧ (∀ k, ns ≤ k → k < (drainFuel tasks fuel p ns ex).2.1 → k ∈ p)
      ∧ (drainFuel tasks fuel p ns ex).1.Nodup
      ∧ (ex = (List.range ns).map (fun j => (j, resolveOutcome (tasks j))) →
          (drainFuel tasks fuel p ns ex).2.2
            = (List.range (drainFuel tasks fuel p ns ex).2.1).map
                (fun j => (j, resolveOutcome (tasks j)))) := by
  induction fuel with
  | zero =>
      intro p ns ex hlen hnd
      have hp : p = [] := List.eq_nil_of_length_eq_zero (Nat.le_zero.mp hlen)
      subst hp
      simp only [drainFuel]
      refine ⟨Nat.le_refl _, by simp, ?_, ?_, List.nodup_nil, fun h => h⟩
      · intro s; simp
      · intro k h1 h2; omega
  | succ fuel ih =>
      intro p ns ex hlen hnd
      by_cases hmem : ns ∈ p
      · simp only [drainFuel, if_pos hmem]
        have hlen' : (p.erase ns).length ≤ fuel := by
          have := List.length_erase_of_mem hmem
          omega
        have hnd' : (p.erase ns).Nodup := hnd.erase ns
        obtain ⟨h1, h2, h3, h4, h5, h6⟩ := ih (p.erase ns) (ns + 1)
          (ex ++ [(ns, resolveOutcome (tasks ns))]) hlen' hnd'
        refine ⟨Nat.le_trans (Nat.le_succ ns) h1, h2, ?_, ?_, h5, ?_⟩
        · intro s
          rw [h3 s, List.Nodup.mem_erase_iff hnd]
          constructor
          · rintro ⟨⟨hne, hp'⟩, hcase⟩
            refine ⟨hp', ?_⟩
            rcases hcase with hlt | hge
            · left; omega
            · right; exact hge
          · rintro ⟨hp', hcase⟩
            rcases hcase with hlt | hge
            · exact ⟨⟨by omega, hp'⟩, Or.inl (by omega)⟩
            · exact ⟨⟨by omega, hp'⟩, Or.inr hge⟩
        · intro k hk1 hk2
          by_cases hkn : k = ns
          · exact hkn ▸ hmem
          · have hk1' : ns + 1 ≤ k := by omega
            exact List.mem_of_mem_erase (h4 k hk1' hk2)
        · intro hex
          apply h6
          rw [hex, List.range_succ, List.map_append]
          rfl
      · simp only [drainFuel, if_neg hmem]
        refine ⟨Nat.le_refl _, hmem, ?_, ?_, hnd, fun h => h⟩
        · intro s
          constructor
          · intro hs; exact ⟨hs, Nat.lt_or_ge s ns⟩
          · exact fun h => h.1
        · intro k h1 h2; omega

theorem handleArrival_inv {α : Type} (tasks : Nat → TaskOutcome α)
    (st : ProcState α) (arrived : List Nat) (a : Nat)
    (hinv : ArrInv tasks st arrived) (ha : a ∉ arrived) :
    ArrInv tasks (handleArrival tasks st a) (arrived ++ [a]) := by
  obtain ⟨hex, hnd, hmemIff, hlow, hns⟩ := hinv
  have hapnd : a ∉ st.pending := fun h => ha ((hmemIff a).mp h).1
  have hnd' : (a :: st.pending).Nodup := List.nodup_cons.mpr ⟨hapnd, hnd⟩
  have hna : st.next_sequence ≤ a := by
    by_contra h
    exact ha (hlow a (Nat.lt_of_not_le h))
  obtain ⟨h1, h2, h3, h4, h5, h6⟩ := drainFuel_spec tasks
    (a :: st.pending).length (a :: st.pending) st.next_sequence st.executed
    (Nat.le_refl _) hnd'
  refine ⟨h6 hex, h5, ?_, ?_, h2⟩
  · intro s
    rw [show (handleArrival tasks st a).pending
        = (drainFuel tasks (a :: st.pending).length (a :: st.pending)
            st.next_sequence st.executed).1 from rfl]
    rw [h3 s]
    constructor
    · rintro ⟨hm, hc⟩
      rcases List.mem_cons.mp hm with rfl | hm'
      · refine ⟨List.mem_append.mpr (Or.inr (List.mem_singleton.mpr rfl)), ?_⟩
        rcases hc with hlt | hge
        · omega
        · exact hge
      · obtain ⟨harr, hge0⟩ := (hmemIff s).mp hm'
        refine ⟨List.mem_append.mpr (Or.inl harr), ?_⟩
        rcases hc with hlt | hge
        · omega
        · exact hge
    · rintro ⟨hm, hge⟩
      rcases List.mem_append.mp hm with harr | hsing
      · have hge0 : st.next_sequence ≤ s := Nat.le_trans h1 hge
        exact ⟨List.mem_cons_of_mem a ((hmemIff s).mpr ⟨harr, hge0⟩),
          Or.inr hge⟩
      · have : s = a := List.mem_singleton.mp hsing
        exact ⟨this ▸ List.mem_cons_self a st.pending, Or.inr hge⟩
  · intro k hk
    by_cases hk0 : k < st.next_sequence
    · exact List.mem_append.mpr (Or.inl (hlow k hk0))
    · have hk1 : st.next_sequence ≤ k := Nat.le_of_not_lt hk0
      have hk2 := h4 k hk1 hk
      rcases List.mem_cons.mp hk2 with rfl | hm'
      · exact List.mem_append.mpr (Or.inr (List.mem_singleton.mpr rfl))
      · exact List.mem_append.mpr (Or.inl ((hmemIff k).mp hm').1)

theorem processArrivals_inv {α : Type} (tasks : Nat → TaskOutcome α) :
    ∀ (arr arrived : List Nat) (st : ProcState α),
      ArrInv tasks st arrived → (arrived ++ arr).Nodup →
      ArrInv tasks (arr.foldl (handleArrival tasks) st) (arrived ++ arr) := by
  intro arr
  induction arr with
  | nil =>
      intro arrived st hinv _
      simpa using hinv
  | cons a rest ih =>
      intro arrived st hinv hnd
      have ha : a ∉ arrived := fun h =>
        (List.nodup_append.mp hnd).2.2 h (List.mem_cons_self a rest)
      have hnd' : (arrived ++ [a] ++ rest).Nodup := by
        simpa [List.append_assoc] using hnd
      have hstep := ih (arrived ++ [a]) (handleArrival tasks st a)
        (handleArrival_inv tasks st arrived a hinv ha) hnd'
      simpa [List.append_assoc] using hstep

theorem processArrivals_complete {α : Type} (tasks : Nat → TaskOutcome α)
    (N : Nat) (arr : List Nat) (h : arr.Perm (List.range N)) :
    (processArrivals tasks arr).next_sequence = N
    ∧ (processArrivals tasks arr).executed
        = (List.range N).map (fun j => (j, resolveOutcome (tasks j)))
    ∧ (processArrivals tasks arr).pending = [] := by
  have hnd : arr.Nodup := h.nodup_iff.mpr (List.nodup_range N)
  have hmem : ∀ s, s ∈ arr ↔ s < N := fun s => by
    rw [h.mem_iff, List.mem_range]
  have hinv0 : ArrInv tasks (⟨[], 0, []⟩ : ProcState α) [] := by
    refine ⟨by simp, List.nodup_nil, ?_, ?_, by simp⟩
    · intro s; simp
    · intro k hk; exact absurd hk (Nat.not_lt_zero k)
  have hinv : ArrInv tasks (processArrivals tasks arr) arr := by
    have := processArrivals_inv tasks arr [] ⟨[], 0, []⟩ hinv0
      (by simpa using hnd)
    simpa [processArrivals] using this
  obtain ⟨hex, hnd2, hiff, hlow, hns⟩ := hinv
  have hnotin : (processArrivals tasks arr).next_sequence ∉ arr := fun hin =>
    hns ((hiff _).mpr ⟨hin, Nat.le_refl _⟩)
  have hNle : N ≤ (processArrivals tasks arr).next_sequence := by
    by_contra hlt
    exact hnotin ((hmem _).mpr (Nat.lt_of_not_le hlt))
  have hleN : (processArrivals tasks arr).next_sequence ≤ N := by
    by_contra hgt
    exact absurd ((hmem N).mp (hlow N (Nat.lt_of_not_le hgt)))
      (Nat.lt_irrefl N)
  have hNs : (processArrivals tasks arr).next_sequence = N :=
    Nat.le_antisymm hleN hNle
  refine ⟨hNs, by rw [hex, hNs], ?_⟩
  rw [List.eq_nil_iff_forall_not_mem]
  intro s hs
  obtain ⟨hin, hge⟩ := (hiff s).mp hs
  have : s < N := (hmem s).mp hin
  omega

/-- C1: for every key, any arrival order of the N submissions that is a
permutation of the assigned sequence numbers 0..N-1 makes the single
sequential processor execute the tasks in exactly ascending sequence
order: the trace is 0, 1, ..., N-1 regardless of arrival order and of the
tasks' outcomes, and — the trace being one sequential list — no two
executions for the key overlap. -/
theorem fifo_by_sequence {α : Type} (tasks : Nat → TaskOutcome α) (N : Nat)
    (arr : List Nat) (h : arr.Perm (List.range N)) :
    (processArrivals tasks arr).executed.map Prod.fst = List.range N := by
  have hc := (processArrivals_complete tasks N arr h).2.1
  rw [hc, List.map_map]
  have hid : Prod.fst ∘ (fun j : Nat => (j, resolveOutcome (tasks j)))
      = id := rfl
  rw [hid, List.map_id]

/-- Witness for C1: arrival order 2, 0, 1 still executes 0, 1, 2. -/
theorem fifo_by_sequence_witness :
    (processArrivals tasksAllOk [2, 0, 1]).executed.map Prod.fst
      = List.range 3 :=
  fifo_by_sequence tasksAllOk 3 [2, 0, 1] (by decide)

/-- C6: a task that raises at sequence number k has the error caught at
the per-task boundary and set on its own future, the processor loop keeps
running, and every later sequence number up to N-1 still executes: the
full trace is produced, each future resolved from its own task's
outcome. -/
theorem task_failure_isolation {α : Type} (tasks : Nat → TaskOutcome α)
    (N k : Nat) (e : String) (arr : List Nat)
    (h : arr.Perm (List.range N)) (hk : k < N)
    (he : tasks k = TaskOutcome.err e) :
    (processArrivals tasks arr).executed
      = (List.range N).map (fun j => (j, resolveOutcome (tasks j)))
    ∧ (k, FutureState.exception e) ∈ (processArrivals tasks arr).executed
    ∧ ∀ j, k < j → j < N →
        (j, resolveOutcome (tasks j))
          ∈ (processArrivals tasks arr).executed := by
  have hc := (processArrivals_complete tasks N arr h).2.1
  refine ⟨hc, ?_, ?_⟩
  · rw [hc]
    refine List.mem_map.mpr ⟨k, List.mem_range.mpr hk, ?_⟩
    rw [he]
    rfl
  · intro j h1 h2
    rw [hc]
    exact List.mem_map.mpr ⟨j, List.mem_range.mpr h2, rfl⟩

/-- Witness for C6: with the task at sequence 1 raising, sequence 2 still
executes and sequence 1's future got the error. -/
theorem task_failure_isolation_witness :
    (2, resolveOutcome (tasksFailAt1 2))
      ∈ (processArrivals tasksFailAt1 [0, 1, 2]).executed
    ∧ (1, FutureState.exception "boom")
      ∈ (processArrivals tasksFailAt1 [0, 1, 2]).executed :=
  ⟨(task_failure_isolation tasksFailAt1 3 1 "boom" [0, 1, 2] (by decide)
      (by decide) (by decide)).2.2 2 (by decide) (by decide),
   (task_failure_isolation tasksFailAt1 3 1 "boom" [0, 1, 2] (by decide)
      (by decide) (by decide)).2.1⟩

/-- Counterexample to C3 as stated: after the single buffered request is
delivered and fully processed, the key's buffer is empty and the processor
has no further signaled work, yet the processor has not exited and the
key's state is still present — the `while True` loop parks on
`queue.get()` again instead of exiting and removing the state. -/
theorem teardown_counterexample :
    (lifeStep tasksAllOk ⟨ProcPhase.waiting, [0], true, ⟨[], 0, []⟩⟩
        LifeEvent.deliver).queueBuf = []
    ∧ (lifeStep tasksAllOk ⟨ProcPhase.waiting, [0], true, ⟨[], 0, []⟩⟩
        LifeEvent.deliver).proc.pending = []
    ∧ (lifeStep tasksAllOk ⟨ProcPhase.waiting, [0], true, ⟨[], 0, []⟩⟩
        LifeEvent.deliver).phase = ProcPhase.waiting
    ∧ (lifeStep tasksAllOk ⟨ProcPhase.waiting, [0], true, ⟨[], 0, []⟩⟩
        LifeEvent.deliver).statePresent = true := by
  decide

/-- C3 (amended): the processor never exits on an empty buffer — after any
delivery it is again parked on `queue.get()` with the key's state intact;
it exits only on cancellation, and the cancellation-time teardown (one
atomic step under the same `self._lock` that `_get_queue` takes for
submission) removes the key's state exactly when the key's queue is empty
at that moment. -/
theorem teardown_only_on_cancellation {α : Type}
    (tasks : Nat → TaskOutcome α) (st : KeyLifecycle α)
    (h : st.phase = ProcPhase.waiting) :
    (lifeStep tasks st LifeEvent.deliver).phase = ProcPhase.waiting
    ∧ (lifeStep tasks st LifeEvent.deliver).statePresent = st.statePresent
    ∧ (lifeStep tasks st LifeEvent.cancel).phase = ProcPhase.exited
    ∧ (lifeStep tasks st LifeEvent.cancel).statePresent
        = (if st.queueBuf.isEmpty then false else st.statePresent) := by
  obtain ⟨ph, buf, sp, pr⟩ := st
  subst h
  cases buf with
  | nil => simp [lifeStep, cancelProc]
  | cons b rest => simp [lifeStep, cancelProc]

/-- Witness for the amended C3 at a concrete idle processor. -/
theorem teardown_only_on_cancellation_witness :
    (lifeStep tasksAllOk ⟨ProcPhase.waiting, [], true, ⟨[], 0, []⟩⟩
        LifeEvent.deliver).phase = ProcPhase.waiting
    ∧ (lifeStep tasksAllOk ⟨ProcPhase.waiting, [], true, ⟨[], 0, []⟩⟩
        LifeEvent.deliver).statePresent
        = (⟨ProcPhase.waiting, [], true, ⟨[], 0, []⟩⟩
            : KeyLifecycle Nat).statePresent
    ∧ (lifeStep tasksAllOk ⟨ProcPhase.waiting, [], true, ⟨[], 0, []⟩⟩
        LifeEvent.cancel).phase = ProcPhase.exited
    ∧ (lifeStep tasksAllOk ⟨ProcPhase.waiting, [], true, ⟨[], 0, []⟩⟩
        LifeEvent.cancel).statePresent
        = (if List.isEmpty ([] : List Nat) then false else true) :=
  teardown_only_on_cancellation tasksAllOk
    ⟨ProcPhase.waiting, [], true, ⟨[], 0, []⟩⟩ rfl

/-- Counterexample to C2 as stated: with one processor active and one
submission's result handle still pending, `cleanup` deadlocks (the gather
on line 210 waits for a processor whose `finally` needs the lock `cleanup`
holds) — it never returns, and the handle stays pending, resolved with
neither a `Cancelled` error nor any terminal outcome. -/
theorem cleanup_counterexample :
    cleanup (⟨[⟨ProcPhase.waiting, [0], true, ⟨[], 0, []⟩⟩],
        [FutureState.pending]⟩ : GlobalState Nat)
      = CleanupResult.deadlocked
          ⟨[⟨ProcPhase.cancelling, [0], true, ⟨[], 0, []⟩⟩],
            [FutureState.pending]⟩
    ∧ (FutureState.pending : FutureState Nat)
        ≠ FutureState.exception "Cancelled" := by
  decide

/-- C2 (amended): `cleanup` completes only when every per-key processor
has already finished, and then it clears the tracking structures while
leaving the handles untouched. With any processor still active — as a
state with pending submissions has — `cleanup` cancels the processors but
holds `self._lock` across the await of their completion while each
cancelled processor's `finally` block waits for that same lock: `cleanup`
never returns, nothing is cleared, no live processor finishes its
teardown (each sits blocked at the lock, its key state still present),
and in every case the pending result handles are never resolved — with
`Cancelled` or anything else. -/
theorem cleanup_spec {α : Type} (g : GlobalState α) :
    ((∀ p ∈ g.procs, p.phase = ProcPhase.exited) →
      cleanup g = CleanupResult.completed
        ⟨g.procs.map (fun p => { p with statePresent := false }),
          g.handles⟩)
    ∧ ((∃ p ∈ g.procs, p.phase ≠ ProcPhase.exited) →
      (∀ g', cleanup g ≠ CleanupResult.completed g')
      ∧ ∃ g', cleanup g = CleanupResult.deadlocked g'
          ∧ g'.handles = g.handles
          ∧ g'.procs.map (fun p => p.statePresent)
              = g.procs.map (fun p => p.statePresent)
          ∧ ∀ p ∈ g'.procs, p.phase = ProcPhase.exited
              ∨ p.phase = ProcPhase.cancelling) := by
  constructor
  · intro h
    have hall : g.procs.all (fun p => p.phase == ProcPhase.exited) = true :=
      List.all_eq_true.mpr fun p hp => beq_iff_eq.mpr (h p hp)
    simp [cleanup, hall]
  · intro hex
    have hall : g.procs.all (fun p => p.phase == ProcPhase.exited)
        = false := by
      obtain ⟨p, hp, hne⟩ := hex
      rcases hb : g.procs.all (fun p => p.phase == ProcPhase.exited) with
        _ | _
      · rfl
      · exact absurd (beq_iff_eq.mp (List.all_eq_true.mp hb p hp)) hne
    refine ⟨?_, ?_⟩
    · intro g' hcon
      rw [show cleanup g = CleanupResult.deadlocked
          ⟨g.procs.map (fun p =>
              if p.phase == ProcPhase.exited then p
              else { p with phase := ProcPhase.cancelling }),
            g.handles⟩ by simp [cleanup, hall]] at hcon
      exact CleanupResult.noConfusion hcon
    · refine ⟨⟨g.procs.map (fun p =>
          if p.phase == ProcPhase.exited then p
          else { p with phase := ProcPhase.cancelling }), g.handles⟩,
        by simp [cleanup, hall], rfl, ?_, ?_⟩
      · rw [List.map_map]
        have hcomp : ((fun p : KeyLifecycle α => p.statePresent) ∘
            (fun p => if p.phase == ProcPhase.exited then p
              else { p with phase := ProcPhase.cancelling }))
            = fun p : KeyLifecycle α => p.statePresent := by
          funext p
          by_cases hb : p.phase = ProcPhase.exited <;> simp [hb]
        rw [hcomp]
      · intro p hp
        rcases List.mem_map.mp hp with ⟨q, hq, rfl⟩
        by_cases hb : q.phase = ProcPhase.exited
        · left; simp [hb]
        · right; simp [beq_false_of_ne hb]

/-- Witness for the amended C2 at a concrete state with one waiting
processor and one pending handle: `cleanup` does not complete there. -/
theorem cleanup_spec_witness :
    cleanup (⟨[⟨ProcPhase.waiting, [0], true, ⟨[], 0, []⟩⟩],
        [FutureState.pending]⟩ : GlobalState Nat)
      ≠ CleanupResult.completed ⟨[], [FutureState.pending]⟩ :=
  ((cleanup_spec (⟨[⟨ProcPhase.waiting, [0], true, ⟨[], 0, []⟩⟩],
      [FutureState.pending]⟩ : GlobalState Nat)).2
    ⟨⟨ProcPhase.waiting, [0], true, ⟨[], 0, []⟩⟩, by decide, by decide⟩).1
    ⟨[], [FutureState.pending]⟩

/-- C5: in every reachable gate state the number of simultaneously
executing tasks across all keys is at most `cap = max_concurrent`, and
with `max_concurrent = 1` at most one task runs at a time even across
distinct keys. -/
theorem gateStep_length_le (cap : Nat) {s t : GateState}
    (hst : GateStep cap s t) (hs : s.running.length ≤ cap) :
    t.running.length ≤ cap := by
  cases hst with
  | start k hlt => exact Nat.succ_le_of_lt hlt
  | finish k hk =>
      exact Nat.le_trans ((List.erase_sublist k s.running).length_le) hs

theorem gate_bounds_concurrency (cap : Nat) (s : GateState)
    (h : GateReachable cap s) :
    s.running.length ≤ cap ∧ (cap = 1 → s.running.length ≤ 1) := by
  have hlen : s.running.length ≤ cap := by
    induction h with
    | init => exact Nat.zero_le _
    | step h1 h2 ih => exact gateStep_length_le cap h2 ih
  exact ⟨hlen, fun hc => hc ▸ hlen⟩

/-- Witness for C5: one task holding the single slot of a gate of
capacity 1. -/
theorem gate_bounds_concurrency_witness :
    (GateState.mk [7]).running.length ≤ 1 :=
  (gate_bounds_concurrency 1 ⟨[7]⟩
    (GateReachable.step GateReachable.init
      (GateStep.start 7 (by decide)))).2 rfl

/-- C7: the caller's wait in `enqueue_request` and the per-task execution
in `_process_queue` are bounded by the same configured `queue_timeout`: a
future not resolving within it makes `enqueue_request` raise
`TimeoutError`, and a task running longer than it gets its future resolved
with `TimeoutError("Request processing timed out")`. -/
theorem queue_timeout_bounds {α : Type} (cfg : RQConfig)
    (resolveTime : Nat) (res : Except String α) (r : TaskRun α)
    (hwait : cfg.queue_timeout < resolveTime)
    (hrun : cfg.queue_timeout < r.duration) :
    awaitFuture cfg resolveTime res = SubmitResult.timeout
    ∧ execWithTimeout cfg r
        = FutureState.exception "Request processing timed out" := by
  unfold awaitFuture execWithTimeout
  rw [if_neg (Nat.not_le.mpr hwait), if_neg (Nat.not_le.mpr hrun)]
  exact ⟨rfl, rfl⟩

/-- Witness for C7 with `queue_timeout = 5`, a future resolving at 7 and a
task running for 9. -/
theorem queue_timeout_bounds_witness :
    awaitFuture ⟨10, 5⟩ 7 (Except.ok (0 : Nat)) = SubmitResult.timeout
    ∧ execWithTimeout ⟨10, 5⟩ ⟨9, Except.ok (1 : Nat)⟩
        = FutureState.exception "Request processing timed out" :=
  queue_timeout_bounds ⟨10, 5⟩ 7 (Except.ok 0) ⟨9, Except.ok 1⟩
    (by decide) (by decide)

/-- C10: the state effect of `enqueue_request` leaves `active_requests`
unchanged — only the `acquire` context manager increments and decrements
it — so `get_queue_length` and `is_full` do not reflect submissions made
through the submit path, and `is_full` returns true exactly when
`active_requests >= max_concurrent`. -/
theorem enqueue_request_frame (s : RQState) (cid : Nat) :
    (enqueue_request s cid).active_requests = s.active_requests
    ∧ get_queue_length (enqueue_request s cid) = get_queue_length s
    ∧ is_full (enqueue_request s cid) = is_full s
    ∧ (acquire_enter s).active_requests = s.active_requests + 1
    ∧ (acquire_exit s).active_requests = s.active_requests - 1
    ∧ (is_full s = true ↔ s.active_requests ≥ s.max_concurrent) := by
  have hact : (enqueue_request s cid).active_requests
      = s.active_requests := by
    unfold enqueue_request get_queue
    by_cases h : cid ∈ s.queues <;> simp [h]
  have hmax : (enqueue_request s cid).max_concurrent
      = s.max_concurrent := by
    unfold enqueue_request get_queue
    by_cases h : cid ∈ s.queues <;> simp [h]
  refine ⟨hact, hact, ?_, rfl, rfl, ?_⟩
  · unfold is_full
    rw [hact, hmax]
  · simp [is_full]

end RequestQueueModel
